import Mathlib

/-!
Verification development for the mm-calibrator calibration core
(`src/calibration.hpp`).  The repository ships only the header: every
function is declared there but no body is under `src/`, so the operations
are modelled from the specification (each such definition carries a doc
comment starting with `Modelled from the spec:`).  C++ `double` values are
embedded as rationals, `cv::Point2f` as a pair of rationals, `cv::Size`
as a pair of integers, and fallible pipeline stages return `Option`.
-/

namespace MMCalib

/-- Embedding of `cv::Point2f`: a 2D sub-pixel point with rational
coordinates. -/
structure Point2f where
  x : ℚ
  y : ℚ
deriving DecidableEq

instance : Inhabited Point2f := ⟨⟨0, 0⟩⟩

/-- Embedding of `cv::Size` (width, height). -/
structure Size where
  width : ℤ
  height : ℤ
deriving DecidableEq

/-- Header constant `MIN_DISTANCE_FROM_EDGE` (calibration.hpp line 62). -/
def MIN_DISTANCE_FROM_EDGE : ℤ := 2

/-- Header constant `DEFAULT_CORRECTION_FACTOR` (calibration.hpp line 70). -/
def DEFAULT_CORRECTION_FACTOR : ℚ := 0.5

/-- Header constant `RADIAL_LENGTH` (calibration.hpp line 48). -/
def RADIAL_LENGTH : ℕ := 1000

/-- Header macro `MSER_delta` (calibration.hpp line 73). -/
def MSER_delta : ℚ := 7.5

/-- Header macro `MSER_max_variation` (calibration.hpp line 74). -/
def MSER_max_variation : ℚ := 0.25

/-- Header macro `MSER_min_diversity` (calibration.hpp line 75). -/
def MSER_min_diversity : ℚ := 0.20

/-- Header macro `MSER_max_evolution` (calibration.hpp line 76). -/
def MSER_max_evolution : ℤ := 200

/-- Header macro `MSER_area_threshold` (calibration.hpp line 77). -/
def MSER_area_threshold : ℚ := 1.01

/-- Header macro `MSER_min_margin` (calibration.hpp line 78). -/
def MSER_min_margin : ℚ := 0.003

/-- Header macro `MSER_edge_blur_size` (calibration.hpp line 79). -/
def MSER_edge_blur_size : ℤ := 5

/-- Embedding of `struct mserParameterGroup` (calibration.hpp lines 86-97):
seven numeric knobs of the external blob detector. -/
structure mserParameterGroup where
  delta : ℚ
  max_variation : ℚ
  min_diversity : ℚ
  max_evolution : ℤ
  area_threshold : ℚ
  min_margin : ℚ
  edge_blur_size : ℤ
deriving DecidableEq

/-- Modelled from the spec: the body of the default constructor
`mserParameterGroup::mserParameterGroup()` is not under `src/` (the header
only declares it); per the header comment DEFAULT MSER SETTINGS, the
defaults are the `MSER_*` macros of calibration.hpp lines 72-79. -/
def mserParameterGroupDefault : mserParameterGroup :=
  { delta := MSER_delta
    max_variation := MSER_max_variation
    min_diversity := MSER_min_diversity
    max_evolution := MSER_max_evolution
    area_threshold := MSER_area_threshold
    min_margin := MSER_min_margin
    edge_blur_size := MSER_edge_blur_size }

/-- True when the point lies strictly within `minBorder` pixels of one of
the four image boundaries. -/
def pointNearEdge (imSize : Size) (minBorder : ℤ) (p : Point2f) : Bool :=
  (p.x < (minBorder : ℚ)) || ((imSize.width - minBorder : ℤ) < p.x) ||
  (p.y < (minBorder : ℚ)) || ((imSize.height - minBorder : ℤ) < p.y)

/-- Modelled from the spec: the body of `patternInFrame` is not under
`src/` (the header declares
`bool patternInFrame(Size imSize, vector<Point2f>& patternPoints, int minBorder = 2)`
at line 257).  Per the spec it rejects a detection where any point lies
within `minBorder` pixels of the image boundary; the point set is not
modified. -/
def patternInFrame (imSize : Size) (patternPoints : List Point2f)
    (minBorder : ℤ) : Bool :=
  patternPoints.all (fun p => !(pointNearEdge imSize minBorder p))

/-- The header gives `minBorder` the default argument value 2
(calibration.hpp line 257), agreeing with `MIN_DISTANCE_FROM_EDGE`. -/
def patternInFrameDefault (imSize : Size) (patternPoints : List Point2f) : Bool :=
  patternInFrame imSize patternPoints 2

/-- A 2D occupancy tally over integer pixel cells, embedding the `Mat`
accumulators (`distributionMap`, `binMap`). -/
def TallyMap : Type := ℤ × ℤ → ℕ

/-- The 1D radial histogram accumulator (`double *radialDistribution`). -/
def RadialHist : Type := ℕ → ℕ

/-- Increment the tally of one cell by one. -/
def incrementCell (m : TallyMap) (cell : ℤ × ℤ) : TallyMap :=
  fun c => if c = cell then m c + 1 else m c

/-- Increment the tally of one radial bin by one. -/
def incrementBin (h : RadialHist) (bin : ℕ) : RadialHist :=
  fun b => if b = bin then h b + 1 else h b

/-- The integer pixel cell containing a sub-pixel point. -/
def cellOfPoint (p : Point2f) : ℤ × ℤ := (⌊p.x⌋, ⌊p.y⌋)

/-- Modelled from the spec: the body of `addToDistributionMap` is not
under `src/` (header line 167).  Per the spec the distribution map is a
2D occupancy histogram accumulated across accepted frames: each corner of
the accepted set increments the tally of the cell it falls in. -/
def addToDistributionMap (distributionMap : TallyMap)
    (corners : List Point2f) : TallyMap :=
  corners.foldl (fun m p => incrementCell m (cellOfPoint p)) distributionMap

/-- Arithmetic mean of a list of points (centroid of a corner set). -/
def meanPoint (pts : List Point2f) : Point2f :=
  ⟨(pts.map Point2f.x).sum / pts.length, (pts.map Point2f.y).sum / pts.length⟩

/-- Modelled from the spec: the body of `addToBinMap` is not under `src/`
(header line 135).  The bin map is a coarse tally matrix of where accepted
corner sets sit in the frame: one call increments the tally of the cell
holding the corner set's mean point. -/
def addToBinMap (binMap : TallyMap) (cornerSet : List Point2f)
    (imSize : Size) : TallyMap :=
  incrementCell binMap (cellOfPoint (meanPoint cornerSet))

/-- Squared Euclidean distance between two points. -/
def distSq (p q : Point2f) : ℚ :=
  (p.x - q.x) ^ 2 + (p.y - q.y) ^ 2

/-- Radial bin index of a point: its squared distance from the image
centre, as a fraction of the squared half-diagonal, scaled to
`RADIAL_LENGTH` bins and clamped (distances are binned through their
squares to stay rational). -/
def radialBin (imSize : Size) (p : Point2f) : ℕ :=
  let centre : Point2f := ⟨(imSize.width : ℚ) / 2, (imSize.height : ℚ) / 2⟩
  let maxSq : ℚ := ((imSize.width : ℚ) / 2) ^ 2 + ((imSize.height : ℚ) / 2) ^ 2
  if maxSq = 0 then 0
  else min (RADIAL_LENGTH - 1) (⌊(RADIAL_LENGTH : ℚ) * distSq p centre / maxSq⌋.toNat)

/-- Modelled from the spec: the body of `addToRadialDistribution` is not
under `src/` (header line 132).  The radial distribution is a 1D histogram
of point distances from the image centre: each corner of the set
increments the tally of its radial bin. -/
def addToRadialDistribution (radialDistribution : RadialHist)
    (cornerSet : List Point2f) (imSize : Size) : RadialHist :=
  cornerSet.foldl (fun h p => incrementBin h (radialBin imSize p)) radialDistribution

theorem incrementCell_le (m : TallyMap) (cell c : ℤ × ℤ) :
    m c ≤ incrementCell m cell c := by
  unfold incrementCell
  split <;> omega

theorem foldl_incrementCell_le (f : Point2f → ℤ × ℤ) (pts : List Point2f) :
    ∀ (m : TallyMap) (c : ℤ × ℤ),
      m c ≤ pts.foldl (fun m p => incrementCell m (f p)) m c := by
  induction pts with
  | nil => intro m c; exact le_refl _
  | cons p ps ih =>
      intro m c
      exact le_trans (incrementCell_le m (f p) c) (ih _ c)

theorem incrementBin_le (h : RadialHist) (bin b : ℕ) :
    h b ≤ incrementBin h bin b := by
  unfold incrementBin
  split <;> omega

theorem foldl_incrementBin_le (f : Point2f → ℕ) (pts : List Point2f) :
    ∀ (h : RadialHist) (b : ℕ),
      h b ≤ pts.foldl (fun h p => incrementBin h (f p)) h b := by
  induction pts with
  | nil => intro h b; exact le_refl _
  | cons p ps ih =>
      intro h b
      exact le_trans (incrementBin_le h (f p) b) (ih _ b)

/-- Index of grid point (r, c) in a row-major sequence with `cols`
columns per row. -/
def gridIdx (cols r c : ℕ) : ℕ := r * cols + c

/-- Horizontally adjacent grid index pairs (same row, consecutive
columns). -/
def horizPairs (rows cols : ℕ) : List (ℕ × ℕ) :=
  ((List.range rows).map (fun r =>
    (List.range (cols - 1)).map (fun c =>
      (gridIdx cols r c, gridIdx cols r (c + 1))))).flatten

/-- Vertically adjacent grid index pairs (consecutive rows, same
column). -/
def vertPairs (rows cols : ℕ) : List (ℕ × ℕ) :=
  ((List.range (rows - 1)).map (fun r =>
    (List.range cols).map (fun c =>
      (gridIdx cols r c, gridIdx cols (r + 1) c)))).flatten

/-- All index pairs of logically adjacent grid points of a
rows-by-cols row-major grid. -/
def adjacentPairs (rows cols : ℕ) : List (ℕ × ℕ) :=
  horizPairs rows cols ++ vertPairs rows cols

/-- One adjacent pair is acceptable when both indices are in range and
the squared distance of the two points lies within the squared bounds
(distances are compared through their squares to stay rational). -/
def pairWithinBounds (pts : List Point2f) (minDist maxDist : ℚ)
    (ij : ℕ × ℕ) : Bool :=
  match pts[ij.1]?, pts[ij.2]? with
  | some p, some q => decide (minDist ^ 2 ≤ distSq p q ∧ distSq p q ≤ maxDist ^ 2)
  | _, _ => false

/-- Modelled from the spec: the body of `verifyPattern` is not under
`src/` (header line 173).  Per the spec it checks that all pairwise
distances between logically-adjacent grid points fall within
`[minDist, maxDist]`, for a pattern of `patternSize.height` rows and
`patternSize.width` columns in row-major order. -/
def verifyPattern (imSize : Size) (patternSize : Size)
    (patternPoints : List Point2f) (minDist maxDist : ℚ) : Bool :=
  (patternPoints.length == patternSize.height.toNat * patternSize.width.toNat) &&
  (adjacentPairs patternSize.height.toNat patternSize.width.toNat).all
    (pairWithinBounds patternPoints minDist maxDist)

/-- Modelled from the spec: the body of `verifyCorners` is not under
`src/` (header line 145); the spec gives it the same grid-verification
contract as `verifyPattern`. -/
def verifyCorners (imSize : Size) (patternSize : Size)
    (patternPoints : List Point2f) (minDist maxDist : ℚ) : Bool :=
  verifyPattern imSize patternSize patternPoints minDist maxDist

/-- Modelled from the spec: the bodies of the three `randomCulling`
overloads are not under `src/` (header lines 230-236).  The spec:
uniformly subsamples without replacement down to a cap; modelled as
repeatedly erasing a randomly drawn index while the list is longer than
the cap.  `rng` is the stream of random draws, keyed by the current
length; the fuel bounds the loop. -/
def cullLoop (rng : ℕ → ℕ) (maxSearch : ℕ) : ℕ → List α → List α
  | 0, l => l
  | Nat.succ fuel, l =>
    if maxSearch < l.length then
      cullLoop rng maxSearch fuel (l.eraseIdx (rng l.length % l.length))
    else l

/-- The plain-name-list overload of `randomCulling` (header line 230). -/
def randomCulling (rng : ℕ → ℕ) (inputList : List α) (maxSearch : ℕ) : List α :=
  cullLoop rng maxSearch inputList.length inputList

/-- Modelled from the spec: the paired overloads of `randomCulling`
(header lines 233 and 236) erase the same randomly drawn index from the
names list and from the corresponding patterns (or pattern-set) list, so
both stay in lock-step. -/
def cullLoop2 (rng : ℕ → ℕ) (maxSearch : ℕ) :
    ℕ → List α → List β → List α × List β
  | 0, l, p => (l, p)
  | Nat.succ fuel, l, p =>
    if maxSearch < l.length then
      cullLoop2 rng maxSearch fuel (l.eraseIdx (rng l.length % l.length))
        (p.eraseIdx (rng l.length % l.length))
    else (l, p)

/-- The paired overload of `randomCulling`: names plus patterns. -/
def randomCulling2 (rng : ℕ → ℕ) (inputList : List α) (maxSearch : ℕ)
    (patterns : List β) : List α × List β :=
  cullLoop2 rng maxSearch inputList.length inputList patterns

theorem gridIdx_lt (rows cols r c : ℕ) (hr : r < rows) (hc : c < cols) :
    gridIdx cols r c < rows * cols := by
  unfold gridIdx
  calc r * cols + c < r * cols + cols := by omega
    _ = (r + 1) * cols := by ring
    _ ≤ rows * cols := Nat.mul_le_mul_right _ hr

theorem mem_horizPairs (rows cols : ℕ) (ij : ℕ × ℕ)
    (hmem : ij ∈ horizPairs rows cols) :
    ∃ r c, r < rows ∧ c + 1 < cols ∧
      ij = (gridIdx cols r c, gridIdx cols r (c + 1)) := by
  unfold horizPairs at hmem
  simp only [List.mem_flatten, List.mem_map, List.mem_range] at hmem
  obtain ⟨L, ⟨r, hr, rfl⟩, hL⟩ := hmem
  simp only [List.mem_map, List.mem_range] at hL
  obtain ⟨c, hc, rfl⟩ := hL
  exact ⟨r, c, hr, by omega, rfl⟩

theorem mem_vertPairs (rows cols : ℕ) (ij : ℕ × ℕ)
    (hmem : ij ∈ vertPairs rows cols) :
    ∃ r c, r + 1 < rows ∧ c < cols ∧
      ij = (gridIdx cols r c, gridIdx cols (r + 1) c) := by
  unfold vertPairs at hmem
  simp only [List.mem_flatten, List.mem_map, List.mem_range] at hmem
  obtain ⟨L, ⟨r, hr, rfl⟩, hL⟩ := hmem
  simp only [List.mem_map, List.mem_range] at hL
  obtain ⟨c, hc, rfl⟩ := hL
  exact ⟨r, c, by omega, hc, rfl⟩

theorem adjacentPairs_lt (rows cols : ℕ) (ij : ℕ × ℕ)
    (hmem : ij ∈ adjacentPairs rows cols) :
    ij.1 < rows * cols ∧ ij.2 < rows * cols := by
  unfold adjacentPairs at hmem
  rcases List.mem_append.mp hmem with hh | hv
  · obtain ⟨r, c, hr, hc, rfl⟩ := mem_horizPairs rows cols ij hh
    exact ⟨gridIdx_lt rows cols r c hr (by omega),
           gridIdx_lt rows cols r (c + 1) hr hc⟩
  · obtain ⟨r, c, hr, hc, rfl⟩ := mem_vertPairs rows cols ij hv
    exact ⟨gridIdx_lt rows cols r c (by omega) hc,
           gridIdx_lt rows cols (r + 1) c hr hc⟩

theorem distSq_nonneg (p q : Point2f) : 0 ≤ distSq p q :=
  add_nonneg (sq_nonneg _) (sq_nonneg _)

theorem dist_bounds_iff (p q : Point2f) (minDist maxDist : ℚ)
    (h0 : 0 ≤ minDist) (h1 : 0 ≤ maxDist) :
    (minDist ^ 2 ≤ distSq p q ∧ distSq p q ≤ maxDist ^ 2) ↔
    ((minDist : ℝ) ≤ Real.sqrt ((distSq p q : ℚ) : ℝ) ∧
      Real.sqrt ((distSq p q : ℚ) : ℝ) ≤ (maxDist : ℝ)) := by
  have hd : (0 : ℚ) ≤ distSq p q := distSq_nonneg p q
  rw [Real.le_sqrt (by exact_mod_cast h0) (by exact_mod_cast hd),
      Real.sqrt_le_left (by exact_mod_cast h1)]
  constructor
  · rintro ⟨ha, hb⟩
    exact ⟨by exact_mod_cast ha, by exact_mod_cast hb⟩
  · rintro ⟨ha, hb⟩
    exact ⟨by exact_mod_cast ha, by exact_mod_cast hb⟩

/-- C10: the default-constructed `mserParameterGroup` sets its seven
fields to the documented MSER defaults: delta = 7.5,
max_variation = 0.25, min_diversity = 0.20, max_evolution = 200,
area_threshold = 1.01, min_margin = 0.003, edge_blur_size = 5. -/
theorem mserParameterGroupDefault_fields :
    mserParameterGroupDefault.delta = 7.5 ∧
    mserParameterGroupDefault.max_variation = 0.25 ∧
    mserParameterGroupDefault.min_diversity = 0.20 ∧
    mserParameterGroupDefault.max_evolution = 200 ∧
    mserParameterGroupDefault.area_threshold = 1.01 ∧
    mserParameterGroupDefault.min_margin = 0.003 ∧
    mserParameterGroupDefault.edge_blur_size = 5 := by
  refine ⟨rfl, rfl, rfl, rfl, rfl, rfl, rfl⟩

/-- C7: `patternInFrame` returns false if and only if some point of the
set lies within `minBorder` pixels of the image boundary (its coordinate
is under `minBorder`, or over the image extent minus `minBorder`), and
the default-argument variant uses `minBorder = 2`. -/
theorem patternInFrame_false_iff (imSize : Size) (pts : List Point2f)
    (minBorder : ℤ) :
    (patternInFrame imSize pts minBorder = false ↔
      ∃ p ∈ pts, p.x < (minBorder : ℚ) ∨ (imSize.width : ℚ) - (minBorder : ℚ) < p.x ∨
        p.y < (minBorder : ℚ) ∨ (imSize.height : ℚ) - (minBorder : ℚ) < p.y) ∧
    patternInFrameDefault imSize pts = patternInFrame imSize pts 2 := by
  constructor
  · unfold patternInFrame
    rw [List.all_eq_false]
    constructor
    · rintro ⟨p, hp, hne⟩
      refine ⟨p, hp, ?_⟩
      have hb : pointNearEdge imSize minBorder p = true := by
        cases hpe : pointNearEdge imSize minBorder p with
        | true => rfl
        | false => exact absurd (by simp [hpe]) hne
      simp only [pointNearEdge, Bool.or_eq_true, decide_eq_true_eq] at hb
      push_cast at hb
      tauto
    · rintro ⟨p, hp, hcond⟩
      refine ⟨p, hp, ?_⟩
      have hb : pointNearEdge imSize minBorder p = true := by
        simp only [pointNearEdge, Bool.or_eq_true, decide_eq_true_eq]
        push_cast
        tauto
      simp [hb]
  · rfl

/-- C3: the accumulators are monotonically non-decreasing: each call of
`addToDistributionMap`, `addToBinMap` and `addToRadialDistribution`
leaves every cell/bin tally at least its value before the call. -/
theorem accumulators_monotone (m bm : TallyMap) (h : RadialHist)
    (corners cornerSet : List Point2f) (imSize : Size) :
    (∀ c, m c ≤ addToDistributionMap m corners c) ∧
    (∀ c, bm c ≤ addToBinMap bm cornerSet imSize c) ∧
    (∀ b, h b ≤ addToRadialDistribution h cornerSet imSize b) := by
  refine ⟨?_, ?_, ?_⟩
  · intro c
    exact foldl_incrementCell_le cellOfPoint corners m c
  · intro c
    exact incrementCell_le bm _ c
  · intro b
    exact foldl_incrementBin_le (radialBin imSize) cornerSet h b

/-- C2: for a point set of the grid length and thresholds
`0 ≤ minDist ≤ maxDist`, `verifyPattern` returns true exactly when every
pair of logically-adjacent grid points has Euclidean distance within
`[minDist, maxDist]` (so it returns false exactly when some adjacent-pair
distance exceeds `maxDist` or falls below `minDist`), and `verifyCorners`
agrees with `verifyPattern`. -/
theorem verifyPattern_iff (imSize patternSize : Size) (pts : List Point2f)
    (minDist maxDist : ℚ) (h0 : 0 ≤ minDist) (hmm : minDist ≤ maxDist)
    (hlen : pts.length = patternSize.height.toNat * patternSize.width.toNat) :
    (verifyPattern imSize patternSize pts minDist maxDist = true ↔
      ∀ ij ∈ adjacentPairs patternSize.height.toNat patternSize.width.toNat,
        ∀ p ∈ pts[ij.1]?, ∀ q ∈ pts[ij.2]?,
          (minDist : ℝ) ≤ Real.sqrt ((distSq p q : ℚ) : ℝ) ∧
            Real.sqrt ((distSq p q : ℚ) : ℝ) ≤ (maxDist : ℝ)) ∧
    verifyCorners imSize patternSize pts minDist maxDist =
      verifyPattern imSize patternSize pts minDist maxDist := by
  have h1 : (0 : ℚ) ≤ maxDist := le_trans h0 hmm
  refine ⟨?_, rfl⟩
  unfold verifyPattern
  rw [Bool.and_eq_true, List.all_eq_true, beq_iff_eq]
  constructor
  · rintro ⟨hlen2, hall⟩ ij hij p hp q hq
    have hpair := hall ij hij
    rw [Option.mem_def] at hp hq
    unfold pairWithinBounds at hpair
    rw [hp, hq] at hpair
    simp only [decide_eq_true_eq] at hpair
    exact (dist_bounds_iff p q minDist maxDist h0 h1).mp hpair
  · intro hall
    refine ⟨hlen, ?_⟩
    intro ij hij
    have hlt := adjacentPairs_lt _ _ ij hij
    have hi : ij.1 < pts.length := by omega
    have hj : ij.2 < pts.length := by omega
    have hp : pts[ij.1]? = some (pts.get ⟨ij.1, hi⟩) := by
      simp [List.getElem?_eq_getElem hi]
    have hq : pts[ij.2]? = some (pts.get ⟨ij.2, hj⟩) := by
      simp [List.getElem?_eq_getElem hj]
    have hbd := hall ij hij _ (by rw [hp]; rfl) _ (by rw [hq]; rfl)
    unfold pairWithinBounds
    rw [hp, hq]
    simp only [decide_eq_true_eq]
    exact (dist_bounds_iff _ _ minDist maxDist h0 h1).mpr hbd

/-- Closed instance of `verifyPattern_iff`: a concrete 2-by-2 unit grid
with bounds [1, 2]. -/
theorem verifyPattern_iff_witness :
    (0 : ℚ) ≤ 1 ∧ (1 : ℚ) ≤ 2 ∧
    ([⟨0,0⟩, ⟨1,0⟩, ⟨0,1⟩, ⟨1,1⟩] : List Point2f).length =
      (Size.mk 2 2).height.toNat * (Size.mk 2 2).width.toNat ∧
    (verifyPattern (Size.mk 10 10) (Size.mk 2 2)
        [⟨0,0⟩, ⟨1,0⟩, ⟨0,1⟩, ⟨1,1⟩] 1 2 = true ↔
      ∀ ij ∈ adjacentPairs (Size.mk 2 2).height.toNat (Size.mk 2 2).width.toNat,
        ∀ p ∈ ([⟨0,0⟩, ⟨1,0⟩, ⟨0,1⟩, ⟨1,1⟩] : List Point2f)[ij.1]?,
          ∀ q ∈ ([⟨0,0⟩, ⟨1,0⟩, ⟨0,1⟩, ⟨1,1⟩] : List Point2f)[ij.2]?,
            ((1 : ℚ) : ℝ) ≤ Real.sqrt ((distSq p q : ℚ) : ℝ) ∧
              Real.sqrt ((distSq p q : ℚ) : ℝ) ≤ ((2 : ℚ) : ℝ)) :=
  ⟨by decide, by decide, by decide,
    (verifyPattern_iff (Size.mk 10 10) (Size.mk 2 2)
      [⟨0,0⟩, ⟨1,0⟩, ⟨0,1⟩, ⟨1,1⟩] 1 2 (by decide) (by decide) (by decide)).1⟩

theorem cullLoop_sublist (rng : ℕ → ℕ) (maxSearch : ℕ) :
    ∀ (fuel : ℕ) (l : List α), (cullLoop rng maxSearch fuel l).Sublist l := by
  intro fuel
  induction fuel with
  | zero => intro l; exact List.Sublist.refl l
  | succ fuel ih =>
      intro l
      unfold cullLoop
      split
      · exact List.Sublist.trans (ih _) (List.eraseIdx_sublist l _)
      · exact List.Sublist.refl l

theorem cullLoop_length (rng : ℕ → ℕ) (maxSearch : ℕ) :
    ∀ (fuel : ℕ) (l : List α), l.length - maxSearch ≤ fuel →
      maxSearch ≤ l.length →
      (cullLoop rng maxSearch fuel l).length = maxSearch := by
  intro fuel
  induction fuel with
  | zero =>
      intro l hf hm
      have : l.length = maxSearch := by omega
      unfold cullLoop
      exact this
  | succ fuel ih =>
      intro l hf hm
      unfold cullLoop
      split
      · rename_i hlt
        have hpos : 0 < l.length := by omega
        have hidx : rng l.length % l.length < l.length := Nat.mod_lt _ hpos
        have herase : (l.eraseIdx (rng l.length % l.length)).length = l.length - 1 :=
          List.length_eraseIdx_of_lt hidx
        exact ih _ (by omega) (by omega)
      · rename_i hge
        omega

theorem zip_eraseIdx (l : List α) :
    ∀ (p : List β) (k : ℕ), l.length = p.length →
      (l.zip p).eraseIdx k = (l.eraseIdx k).zip (p.eraseIdx k) := by
  induction l with
  | nil =>
      intro p k h
      simp
  | cons a as ih =>
      intro p k h
      cases p with
      | nil => simp at h
      | cons b bs =>
          cases k with
          | zero => simp
          | succ k =>
              simp only [List.zip_cons_cons, List.eraseIdx_cons_succ]
              rw [ih bs k (by simpa using h)]

theorem cullLoop2_eq_pair (rng : ℕ → ℕ) (maxSearch : ℕ) :
    ∀ (fuel : ℕ) (l : List α) (p : List β), l.length = p.length →
      cullLoop2 rng maxSearch fuel l p =
        (cullLoop rng maxSearch fuel l, cullLoop rng maxSearch fuel p) := by
  intro fuel
  induction fuel with
  | zero =>
      intro l p h
      rfl
  | succ fuel ih =>
      intro l p h
      unfold cullLoop2 cullLoop
      rw [h]
      split
      · rename_i hlt
        have hpos : 0 < p.length := by omega
        have hidx : rng p.length % p.length < p.length := Nat.mod_lt _ hpos
        rw [ih _ _ (by
          rw [List.length_eraseIdx_of_lt (by omega), List.length_eraseIdx_of_lt hidx, h])]
      · rfl

theorem cullLoop_zip (rng : ℕ → ℕ) (maxSearch : ℕ) :
    ∀ (fuel : ℕ) (l : List α) (p : List β), l.length = p.length →
      cullLoop rng maxSearch fuel (l.zip p) =
        (cullLoop rng maxSearch fuel l).zip (cullLoop rng maxSearch fuel p) := by
  intro fuel
  induction fuel with
  | zero =>
      intro l p h
      rfl
  | succ fuel ih =>
      intro l p h
      have hzlen : (l.zip p).length = l.length := by
        rw [List.length_zip, h, Nat.min_self]
      unfold cullLoop
      rw [hzlen, h]
      split
      · rename_i hlt
        have hpos : 0 < p.length := by omega
        have hidx : rng p.length % p.length < p.length := Nat.mod_lt _ hpos
        rw [zip_eraseIdx l p _ h]
        rw [ih _ _ (by
          rw [List.length_eraseIdx_of_lt (by omega), List.length_eraseIdx_of_lt hidx, h])]
      · rfl

/-- C4: with `maxSearch` below the list length, `randomCulling` leaves
exactly `maxSearch` entries, every survivor was present in the input (the
result is a sublist, so sampling is without replacement and a
duplicate-free input stays duplicate-free), and the paired overload culls
the names list and the patterns list at the same indices, so the two
lists stay zipped in lock-step. -/
theorem randomCulling_spec (rng : ℕ → ℕ) (inputList : List α)
    (patterns : List β) (maxSearch : ℕ) (h : maxSearch < inputList.length)
    (hp : inputList.length = patterns.length) :
    (randomCulling rng inputList maxSearch).length = maxSearch ∧
    (randomCulling rng inputList maxSearch).Sublist inputList ∧
    (∀ x ∈ randomCulling rng inputList maxSearch, x ∈ inputList) ∧
    (inputList.Nodup → (randomCulling rng inputList maxSearch).Nodup) ∧
    randomCulling2 rng inputList maxSearch patterns =
      (randomCulling rng inputList maxSearch,
        cullLoop rng maxSearch inputList.length patterns) ∧
    (randomCulling2 rng inputList maxSearch patterns).1.zip
        (randomCulling2 rng inputList maxSearch patterns).2 =
      randomCulling rng (inputList.zip patterns) maxSearch := by
  have hsub : (randomCulling rng inputList maxSearch).Sublist inputList :=
    cullLoop_sublist rng maxSearch inputList.length inputList
  refine ⟨?_, hsub, ?_, ?_, ?_, ?_⟩
  · exact cullLoop_length rng maxSearch inputList.length inputList
      (by omega) (by omega)
  · intro x hx
    exact hsub.mem hx
  · intro hnd
    exact hnd.sublist hsub
  · unfold randomCulling2 randomCulling
    exact cullLoop2_eq_pair rng maxSearch inputList.length inputList patterns hp
  · unfold randomCulling2 randomCulling
    rw [cullLoop2_eq_pair rng maxSearch inputList.length inputList patterns hp]
    have hzlen : (inputList.zip patterns).length = inputList.length := by
      rw [List.length_zip, ← hp, Nat.min_self]
    rw [hzlen]
    exact (cullLoop_zip rng maxSearch inputList.length inputList patterns hp).symm

/-- Closed instance of `randomCulling_spec`: culling a three-name list
with its paired pattern list down to two entries. -/
theorem randomCulling_spec_witness :
    (2 : ℕ) < ([10, 20, 30] : List ℕ).length ∧
    ([10, 20, 30] : List ℕ).length = ([4, 5, 6] : List ℕ).length ∧
    (randomCulling (fun n => n) ([10, 20, 30] : List ℕ) 2).length = 2 :=
  ⟨by decide, by decide,
    (randomCulling_spec (fun n => n) ([10, 20, 30] : List ℕ)
      ([4, 5, 6] : List ℕ) 2 (by decide) (by decide)).1⟩

/-- Row-major index of the grid point sitting at quad-clustered position
`k`: quad block `k / 4` (row-major over the grid of 2-by-2 blocks), offset
`k % 4` inside the block. -/
def quadToRowMajor (cols k : ℕ) : ℕ :=
  (2 * (k / 4 / (cols / 2)) + k % 4 / 2) * cols + (2 * (k / 4 % (cols / 2)) + k % 4 % 2)

/-- Quad-clustered position of the grid point with row-major index `k`:
its 2-by-2 block, times four, plus its offset inside the block. -/
def rowMajorToQuad (cols k : ℕ) : ℕ :=
  (k / cols / 2 * (cols / 2) + k % cols / 2) * 4 + k / cols % 2 * 2 + k % cols % 2

/-- Modelled from the spec: the body of `groupPointsInQuads` is not under
`src/` (header line 188).  Per the spec it converts the corner ordering
from row-by-row to quad-clustered: the four corners belonging to one cell
(a 2-by-2 block of the grid) become adjacent in the sequence.  This
tiling exists when both grid dimensions are even (the mask-pattern corner
layout); other sizes are left unchanged. -/
def groupPointsInQuads (patternSize : Size) (corners : List Point2f) : List Point2f :=
  let rows := patternSize.height.toNat
  let cols := patternSize.width.toNat
  if rows % 2 = 0 ∧ cols % 2 = 0 then
    (List.range (rows * cols)).map (fun k => corners.getD (quadToRowMajor cols k) default)
  else corners

/-- Modelled from the spec: the reordering back from quad-clustered
grouping to row-by-row order (inverse of `groupPointsInQuads`). -/
def reorderFromQuads (patternSize : Size) (corners : List Point2f) : List Point2f :=
  let rows := patternSize.height.toNat
  let cols := patternSize.width.toNat
  if rows % 2 = 0 ∧ cols % 2 = 0 then
    (List.range (rows * cols)).map (fun k => corners.getD (rowMajorToQuad cols k) default)
  else corners

theorem euclid_div (C a b : ℕ) (hC : 0 < C) (hb : b < C) :
    (a * C + b) / C = a ∧ (a * C + b) % C = b := by
  constructor
  · rw [mul_comm, Nat.mul_add_div hC, Nat.div_eq_of_lt hb, Nat.add_zero]
  · rw [mul_comm, Nat.mul_add_mod, Nat.mod_eq_of_lt hb]

theorem rowMajorToQuad_eq (cols r c : ℕ) (hcols0 : 0 < cols) (hclt : c < cols) :
    rowMajorToQuad cols (r * cols + c) =
      (r / 2 * (cols / 2) + c / 2) * 4 + r % 2 * 2 + c % 2 := by
  unfold rowMajorToQuad
  rw [(euclid_div cols r c hcols0 hclt).1, (euclid_div cols r c hcols0 hclt).2]

theorem quadToRowMajor_eq (cols a b s t : ℕ) (hC : 0 < cols / 2)
    (hb : b < cols / 2) (hs : s < 2) (ht : t < 2) :
    quadToRowMajor cols ((a * (cols / 2) + b) * 4 + s * 2 + t) =
      (2 * a + s) * cols + (2 * b + t) := by
  unfold quadToRowMajor
  have h4 : (a * (cols / 2) + b) * 4 + s * 2 + t
      = (a * (cols / 2) + b) * 4 + (s * 2 + t) := by omega
  rw [h4]
  have hst : s * 2 + t < 4 := by omega
  have hdiv4 : ((a * (cols / 2) + b) * 4 + (s * 2 + t)) / 4 = a * (cols / 2) + b := by
    rw [mul_comm (a * (cols / 2) + b) 4, Nat.mul_add_div (by omega),
        Nat.div_eq_of_lt hst, Nat.add_zero]
  have hmod4 : ((a * (cols / 2) + b) * 4 + (s * 2 + t)) % 4 = s * 2 + t := by
    rw [mul_comm (a * (cols / 2) + b) 4, Nat.mul_add_mod, Nat.mod_eq_of_lt hst]
  rw [hdiv4, hmod4]
  rw [(euclid_div (cols / 2) a b hC hb).1, (euclid_div (cols / 2) a b hC hb).2]
  have hs2 : (s * 2 + t) / 2 = s := by omega
  have ht2 : (s * 2 + t) % 2 = t := by omega
  rw [hs2, ht2]

theorem quad_roundtrip_index (rows cols k : ℕ) (hrows : rows % 2 = 0)
    (hcols : cols % 2 = 0) (hk : k < rows * cols) :
    rowMajorToQuad cols k < rows * cols ∧
    quadToRowMajor cols (rowMajorToQuad cols k) = k := by
  have hn0 : 0 < rows * cols := Nat.zero_lt_of_lt hk
  have hcols0 : 0 < cols := by
    rcases Nat.eq_zero_or_pos cols with hc0 | hc0
    · rw [hc0, Nat.mul_zero] at hn0; omega
    · exact hc0
  have hC : 0 < cols / 2 := by omega
  have hclt : k % cols < cols := Nat.mod_lt _ hcols0
  have hrlt : k / cols < rows := (Nat.div_lt_iff_lt_mul hcols0).mpr hk
  have hk_eq : k / cols * cols + k % cols = k := by
    rw [mul_comm]; exact Nat.div_add_mod k cols
  have hA : k / cols / 2 < rows / 2 := by omega
  have hb : k % cols / 2 < cols / 2 := by omega
  have hs : k / cols % 2 < 2 := by omega
  have ht : k % cols % 2 < 2 := by omega
  have hfwd : rowMajorToQuad cols k =
      (k / cols / 2 * (cols / 2) + k % cols / 2) * 4 + k / cols % 2 * 2 + k % cols % 2 := by
    conv_lhs => rw [← hk_eq]
    exact rowMajorToQuad_eq cols (k / cols) (k % cols) hcols0 hclt
  constructor
  · rw [hfwd]
    have hAC : k / cols / 2 * (cols / 2) + k % cols / 2 < rows / 2 * (cols / 2) := by
      calc k / cols / 2 * (cols / 2) + k % cols / 2
          < k / cols / 2 * (cols / 2) + cols / 2 := by omega
        _ = (k / cols / 2 + 1) * (cols / 2) := by ring
        _ ≤ rows / 2 * (cols / 2) := Nat.mul_le_mul_right _ (by omega)
    have hmul : rows * cols = rows / 2 * (cols / 2) * 4 := by
      obtain ⟨R, hR⟩ : ∃ R, rows = 2 * R := ⟨rows / 2, by omega⟩
      obtain ⟨C, hC2⟩ : ∃ C, cols = 2 * C := ⟨cols / 2, by omega⟩
      subst hR hC2
      rw [Nat.mul_div_cancel_left _ (by omega : (0:ℕ) < 2),
          Nat.mul_div_cancel_left _ (by omega : (0:ℕ) < 2)]
      ring
    have hstep : (k / cols / 2 * (cols / 2) + k % cols / 2) * 4 ≤
        (rows / 2 * (cols / 2) - 1) * 4 := Nat.mul_le_mul_right _ (by omega)
    omega
  · rw [hfwd]
    rw [quadToRowMajor_eq cols (k / cols / 2) (k % cols / 2) (k / cols % 2)
        (k % cols % 2) hC hb hs ht]
    rw [show 2 * (k / cols / 2) + k / cols % 2 = k / cols by omega,
        show 2 * (k % cols / 2) + k % cols % 2 = k % cols by omega]
    exact hk_eq

theorem getD_map_range (n : ℕ) (f : ℕ → Point2f) (k : ℕ) (hk : k < n)
    (d : Point2f) : ((List.range n).map f).getD k d = f k := by
  rw [List.getD_eq_getElem?_getD, List.getElem?_map]
  rw [List.getElem?_range hk]
  rfl

theorem map_range_getD (l : List Point2f) (d : Point2f) :
    (List.range l.length).map (fun k => l.getD k d) = l := by
  apply List.ext_getElem
  · simp
  · intro i h1 h2
    simp only [List.getElem_map, List.getElem_range]
    rw [List.getD_eq_getElem?_getD, List.getElem?_eq_getElem h2]
    rfl

/-- C5: for every pattern size and every corner sequence of matching
length, regrouping the row-major sequence into quad-clustered order with
`groupPointsInQuads` and then reordering back to row-major recovers the
original sequence exactly. -/
theorem groupPointsInQuads_roundTrip (patternSize : Size)
    (corners : List Point2f)
    (hlen : corners.length = patternSize.height.toNat * patternSize.width.toNat) :
    reorderFromQuads patternSize (groupPointsInQuads patternSize corners) = corners := by
  unfold reorderFromQuads groupPointsInQuads
  by_cases hpar : patternSize.height.toNat % 2 = 0 ∧ patternSize.width.toNat % 2 = 0
  · rw [if_pos hpar, if_pos hpar]
    have hmain : ∀ k < patternSize.height.toNat * patternSize.width.toNat,
        ((List.range (patternSize.height.toNat * patternSize.width.toNat)).map
          (fun j => corners.getD (quadToRowMajor patternSize.width.toNat j) default)).getD
            (rowMajorToQuad patternSize.width.toNat k) default
          = corners.getD k default := by
      intro k hk
      obtain ⟨hb, hinv⟩ := quad_roundtrip_index _ _ k hpar.1 hpar.2 hk
      rw [getD_map_range _ _ _ hb, hinv]
    calc (List.range (patternSize.height.toNat * patternSize.width.toNat)).map
          (fun k => ((List.range (patternSize.height.toNat * patternSize.width.toNat)).map
            (fun j => corners.getD (quadToRowMajor patternSize.width.toNat j) default)).getD
              (rowMajorToQuad patternSize.width.toNat k) default)
        = (List.range (patternSize.height.toNat * patternSize.width.toNat)).map
            (fun k => corners.getD k default) := by
          apply List.map_congr_left
          intro k hk
          exact hmain k (List.mem_range.mp hk)
      _ = corners := by rw [← hlen]; exact map_range_getD corners default
  · rw [if_neg hpar, if_neg hpar]

/-- Closed instance of `groupPointsInQuads_roundTrip`: a 2-by-4 corner
grid (one row of two quads) survives the round trip unchanged. -/
theorem groupPointsInQuads_roundTrip_witness :
    ([⟨0,0⟩, ⟨1,0⟩, ⟨2,0⟩, ⟨3,0⟩, ⟨0,1⟩, ⟨1,1⟩, ⟨2,1⟩, ⟨3,1⟩] : List Point2f).length
        = (Size.mk 4 2).height.toNat * (Size.mk 4 2).width.toNat ∧
    reorderFromQuads (Size.mk 4 2) (groupPointsInQuads (Size.mk 4 2)
        [⟨0,0⟩, ⟨1,0⟩, ⟨2,0⟩, ⟨3,0⟩, ⟨0,1⟩, ⟨1,1⟩, ⟨2,1⟩, ⟨3,1⟩])
      = [⟨0,0⟩, ⟨1,0⟩, ⟨2,0⟩, ⟨3,0⟩, ⟨0,1⟩, ⟨1,1⟩, ⟨2,1⟩, ⟨3,1⟩] :=
  ⟨by decide, groupPointsInQuads_roundTrip (Size.mk 4 2)
    [⟨0,0⟩, ⟨1,0⟩, ⟨2,0⟩, ⟨3,0⟩, ⟨0,1⟩, ⟨1,1⟩, ⟨2,1⟩, ⟨3,1⟩] (by decide)⟩

/-- Componentwise blend of the predicted and the previous corner with
correction factor `f`: new = f * predicted + (1 - f) * previous. -/
def blendPoint (f : ℚ) (predicted previous : Point2f) : Point2f :=
  ⟨f * predicted.x + (1 - f) * previous.x, f * predicted.y + (1 - f) * previous.y⟩

/-- One refinement pass: every corner moves to the blend of the locally
predicted position and its previous position.  `predict` is the external
local-homography predictor (a collaborator interface per spec section 6). -/
def refinePass (f : ℚ) (predict : List Point2f → ℕ → Point2f)
    (corners : List Point2f) : List Point2f :=
  (List.range corners.length).map
    (fun i => blendPoint f (predict corners i) (corners.getD i default))

/-- Largest squared displacement between two passes of the corner list. -/
def maxDispSq (old new : List Point2f) : ℚ :=
  ((old.zip new).map (fun pq => distSq pq.1 pq.2)).foldr max 0

/-- Modelled from the spec: the body of `refineCornerPositions` is not
under `src/` (header line 191).  Iterative local correction: each pass
blends the homography-predicted position with the previous estimate using
the correction factor; iteration stops when the (squared) corner
displacement between passes falls below the convergence tolerance or the
iteration cap is exhausted. -/
def refineLoop (f tol : ℚ) (predict : List Point2f → ℕ → Point2f) :
    ℕ → List Point2f → List Point2f
  | 0, corners => corners
  | Nat.succ fuel, corners =>
    if maxDispSq corners (refinePass f predict corners) < tol then
      refinePass f predict corners
    else refineLoop f tol predict fuel (refinePass f predict corners)

/-- The refinement entry point: runs at most `cap` passes. -/
def refineCornerPositions (f tol : ℚ) (cap : ℕ)
    (predict : List Point2f → ℕ → Point2f)
    (corners : List Point2f) : List Point2f :=
  refineLoop f tol predict cap corners

theorem refineLoop_terminates (f tol : ℚ)
    (predict : List Point2f → ℕ → Point2f) :
    ∀ (cap : ℕ) (corners : List Point2f),
      ∃ k ≤ cap,
        refineLoop f tol predict cap corners = (refinePass f predict)^[k] corners ∧
        (k = cap ∨ (0 < k ∧
          maxDispSq ((refinePass f predict)^[k - 1] corners)
            ((refinePass f predict)^[k] corners) < tol)) := by
  intro cap
  induction cap with
  | zero =>
      intro corners
      exact ⟨0, le_refl 0, rfl, Or.inl rfl⟩
  | succ fuel ih =>
      intro corners
      unfold refineLoop
      by_cases hconv : maxDispSq corners (refinePass f predict corners) < tol
      · refine ⟨1, by omega, ?_, Or.inr ⟨by omega, ?_⟩⟩
        · rw [if_pos hconv, Function.iterate_one]
        · simpa using hconv
      · obtain ⟨k, hk, heq, hcase⟩ := ih (refinePass f predict corners)
        refine ⟨k + 1, by omega, ?_, ?_⟩
        · rw [if_neg hconv, heq, ← Function.iterate_succ_apply]
        · rcases hcase with hcap | ⟨hpos, hdisp⟩
          · exact Or.inl (by omega)
          · refine Or.inr ⟨by omega, ?_⟩
            obtain ⟨j, rfl⟩ : ∃ j, k = j + 1 := ⟨k - 1, by omega⟩
            simp only [Nat.add_sub_cancel] at hdisp ⊢
            rw [← Function.iterate_succ_apply, ← Function.iterate_succ_apply] at hdisp
            exact hdisp

/-- C8: for a correction factor f in [0,1], each refinement pass updates
corner i to f·predicted + (1−f)·previous componentwise, and the iteration
loop stops after some k ≤ cap passes: either the cap was reached, or the
squared corner displacement between the two last passes fell below the
convergence tolerance. -/
theorem refineCornerPositions_spec (f tol : ℚ) (cap : ℕ)
    (predict : List Point2f → ℕ → Point2f) (corners : List Point2f)
    (h0 : 0 ≤ f) (h1 : f ≤ 1) :
    (∀ i < corners.length,
      (refinePass f predict corners).getD i default =
        ⟨f * (predict corners i).x + (1 - f) * (corners.getD i default).x,
         f * (predict corners i).y + (1 - f) * (corners.getD i default).y⟩) ∧
    ∃ k ≤ cap,
      refineCornerPositions f tol cap predict corners =
        (refinePass f predict)^[k] corners ∧
      (k = cap ∨ (0 < k ∧
        maxDispSq ((refinePass f predict)^[k - 1] corners)
          ((refinePass f predict)^[k] corners) < tol)) := by
  constructor
  · intro i hi
    unfold refinePass
    rw [getD_map_range _ _ _ hi]
    rfl
  · exact refineLoop_terminates f tol predict cap corners

/-- Closed instance of `refineCornerPositions_spec`: a single corner
refined with factor one half against the identity predictor. -/
theorem refineCornerPositions_spec_witness :
    (0 : ℚ) ≤ 1/2 ∧ (1/2 : ℚ) ≤ 1 ∧
    ((∀ i < ([⟨2, 2⟩] : List Point2f).length,
      (refinePass (1/2) (fun cs j => cs.getD j default)
          ([⟨2, 2⟩] : List Point2f)).getD i default =
        ⟨(1/2 : ℚ) * ((fun (cs : List Point2f) (j : ℕ) => cs.getD j default)
              ([⟨2, 2⟩] : List Point2f) i).x +
            (1 - 1/2) * (([⟨2, 2⟩] : List Point2f).getD i default).x,
         (1/2 : ℚ) * ((fun (cs : List Point2f) (j : ℕ) => cs.getD j default)
              ([⟨2, 2⟩] : List Point2f) i).y +
            (1 - 1/2) * (([⟨2, 2⟩] : List Point2f).getD i default).y⟩) ∧
    ∃ k ≤ 3,
      refineCornerPositions (1/2) (1/100) 3 (fun cs j => cs.getD j default)
          ([⟨2, 2⟩] : List Point2f) =
        (refinePass (1/2) (fun cs j => cs.getD j default))^[k]
          ([⟨2, 2⟩] : List Point2f) ∧
      (k = 3 ∨ (0 < k ∧
        maxDispSq ((refinePass (1/2) (fun cs j => cs.getD j default))^[k - 1]
            ([⟨2, 2⟩] : List Point2f))
          ((refinePass (1/2) (fun cs j => cs.getD j default))^[k]
            ([⟨2, 2⟩] : List Point2f)) < 1/100))) :=
  ⟨by norm_num, by norm_num,
    refineCornerPositions_spec (1/2) (1/100) 3 (fun cs j => cs.getD j default)
      [⟨2, 2⟩] (by norm_num) (by norm_num)⟩

/-- Row-major precedence between two points: smaller y first
(top-to-bottom), and inside one row (equal y) smaller x first
(left-to-right). -/
def lexLeP (p q : Point2f) : Prop :=
  p.y < q.y ∨ (p.y = q.y ∧ p.x ≤ q.x)

instance : DecidableRel lexLeP := fun p q => by
  unfold lexLeP
  infer_instance

instance : IsTrans Point2f lexLeP := by
  constructor
  intro a b c h1 h2
  rcases h1 with h1 | ⟨h1y, h1x⟩ <;> rcases h2 with h2 | ⟨h2y, h2x⟩
  · exact Or.inl (lt_trans h1 h2)
  · exact Or.inl (lt_of_lt_of_eq h1 h2y)
  · exact Or.inl (lt_of_eq_of_lt h1y h2)
  · exact Or.inr ⟨h1y.trans h2y, le_trans h1x h2x⟩

instance : IsTotal Point2f lexLeP := by
  constructor
  intro a b
  rcases lt_trichotomy a.y b.y with h | h | h
  · exact Or.inl (Or.inl h)
  · rcases le_total a.x b.x with hx | hx
    · exact Or.inl (Or.inr ⟨h, hx⟩)
    · exact Or.inr (Or.inr ⟨h.symm, hx⟩)
  · exact Or.inr (Or.inl h)

/-- Modelled from the spec: the body of `sortPatches` is not under `src/`
(header line 179).  It sorts the patch centres into the standard order
(row by row, left to right inside a row) with a deterministic sort; the
image size, pattern size and mode arguments of the C++ signature do not
change the ordering contract. -/
def sortPatches (imageSize patternSize : Size) (patchCentres : List Point2f)
    (mode : ℤ) : List Point2f :=
  patchCentres.insertionSort lexLeP

/-- Modelled from the spec: the body of `reorderPatches` is not under
`src/` (header line 182).  Per the header it re-orders patches into row
by row, left to right, which is the same deterministic row-major sort;
`XVec`/`YVec` carry the per-row findable counts of the C++ signature. -/
def reorderPatches (patternSize : Size) (mode : ℤ) (XVec YVec : List ℤ)
    (patchCentres : List Point2f) : List Point2f :=
  patchCentres.insertionSort lexLeP

/-- Modelled from the spec: the body of `sortCorners` is not under `src/`
(header line 197): it sorts the corners into the standard (row-major)
order to prepare for calibration. -/
def sortCorners (imageSize patternSize : Size)
    (corners : List Point2f) : List Point2f :=
  corners.insertionSort lexLeP

/-- C9: the topology-ordering operations are deterministic: two runs on
identical input centroid sets with the same image size, pattern size and
mode yield identical outputs. -/
theorem sortPatches_deterministic (imageSize patternSize : Size)
    (mode : ℤ) (XVec YVec : List ℤ) (p q : List Point2f) (h : p = q) :
    sortPatches imageSize patternSize p mode =
      sortPatches imageSize patternSize q mode ∧
    reorderPatches patternSize mode XVec YVec p =
      reorderPatches patternSize mode XVec YVec q := by
  subst h
  exact ⟨rfl, rfl⟩

/-- Closed instance of `sortPatches_deterministic` on a concrete centroid
set. -/
theorem sortPatches_deterministic_witness :
    ([⟨3, 1⟩, ⟨1, 2⟩] : List Point2f) = ([⟨3, 1⟩, ⟨1, 2⟩] : List Point2f) ∧
    sortPatches (Size.mk 10 10) (Size.mk 2 1) [⟨3, 1⟩, ⟨1, 2⟩] 0 =
      sortPatches (Size.mk 10 10) (Size.mk 2 1) [⟨3, 1⟩, ⟨1, 2⟩] 0 :=
  ⟨rfl, (sortPatches_deterministic (Size.mk 10 10) (Size.mk 2 1) 0 [] []
    [⟨3, 1⟩, ⟨1, 2⟩] [⟨3, 1⟩, ⟨1, 2⟩] rfl).1⟩

/-- Embedding of `class mserPatch` (header lines 100-123): the descriptor
fields the modelled filters consume (sub-pixel centroid, area, intensity
statistics). -/
structure mserPatch where
  centroid2f : Point2f
  area : ℚ
  meanIntensity : ℚ
  varIntensity : ℚ
deriving DecidableEq

instance : Inhabited mserPatch := ⟨⟨default, 0, 0, 0⟩⟩

/-- Modelled from the spec: the intensity-variance threshold of the
variance filter (the concrete constant lives in the missing translation
unit). -/
def MAX_PATCH_VARIANCE : ℚ := 1

/-- Modelled from the spec: the body of `varianceFilter` is not under
`src/` (header line 161): drop patches whose internal intensity variance
exceeds a threshold. -/
def varianceFilter (patches : List mserPatch) : List mserPatch :=
  patches.filter (fun p => decide (p.varIntensity ≤ MAX_PATCH_VARIANCE))

/-- Modelled from the spec: the body of `shapeFilter` is not under `src/`
(header line 164): drop patches whose hull shape cannot be a pattern
cell; the moment-derived shape test is abstracted to rejecting degenerate
(non-positive-area) patches. -/
def shapeFilter (patches : List mserPatch) : List mserPatch :=
  patches.filter (fun p => decide (0 < p.area))

/-- Modelled from the spec: the body of `enclosureFilter` is not under
`src/` (header line 158): discard duplicate nested detections; abstracted
to keeping one patch per centroid. -/
def enclosureFilter (patches : List mserPatch) : List mserPatch :=
  patches.foldl
    (fun acc p =>
      if acc.any (fun q => q.centroid2f == p.centroid2f) then acc else acc ++ [p])
    []

/-- Modelled from the spec: the body of `clusterFilter` is not under
`src/` (header line 153): discard patches whose position is inconsistent
with the centroid cluster's local consensus; abstracted to dropping
patches beyond twice the root-mean-square radius of the centroid cloud. -/
def clusterFilter (patches : List mserPatch) : List mserPatch :=
  patches.filter (fun p =>
    decide (distSq p.centroid2f (meanPoint (patches.map mserPatch.centroid2f)) ≤
      4 * ((patches.map (fun q =>
        distSq q.centroid2f (meanPoint (patches.map mserPatch.centroid2f)))).sum
          / (patches.length : ℚ))))

/-- Index of the most deviant patch: the one whose centroid is farthest
from the consensus point. -/
def worstIdx (mean : Point2f) (patches : List mserPatch) : ℕ :=
  (List.range patches.length).foldl
    (fun best i =>
      if distSq (patches.getD best default).centroid2f mean <
          distSq (patches.getD i default).centroid2f mean then i else best)
    0

/-- Modelled from the spec: the body of `reduceCluster` is not under
`src/` (header line 155): while more than `totalPatches` patches remain,
discard the single most deviant patch; too few patches are left
unchanged, and the caller detects that as failure. -/
def reduceLoop (totalPatches : ℕ) : ℕ → List mserPatch → List mserPatch
  | 0, l => l
  | Nat.succ fuel, l =>
    if totalPatches < l.length then
      reduceLoop totalPatches fuel
        (l.eraseIdx (worstIdx (meanPoint (l.map mserPatch.centroid2f)) l % l.length))
    else l

/-- Entry point of the cluster reduction: at most `patches.length`
removal steps are ever needed. -/
def reduceCluster (patches : List mserPatch) (totalPatches : ℕ) : List mserPatch :=
  reduceLoop totalPatches patches.length patches

/-- The expected patch count of the pattern: rows times columns. -/
def patternQuantity (patternSize : Size) : ℕ :=
  patternSize.height.toNat * patternSize.width.toNat

/-- Modelled from the spec: the input side of the per-frame pipeline.
Raw blob extraction is an external collaborator (spec section 6), so an
image is embedded as its size together with the patch descriptors the
external detector produces on it. -/
structure CalibImage where
  size : Size
  patches : List mserPatch

/-- Modelled from the spec: the body of `refinePatches` is not under
`src/` (header line 254).  It applies the filter pipeline (variance,
shape, enclosure, cluster, reduce) and reports failure — returning the
`none` status, the C++ `false` — as soon as the surviving patch count
drops below rows*columns at any stage; on success exactly rows*columns
patch centres remain. -/
def refinePatches (image : CalibImage) (patternSize : Size) : Option (List Point2f) :=
  if (varianceFilter image.patches).length < patternQuantity patternSize then none
  else if (shapeFilter (varianceFilter image.patches)).length <
      patternQuantity patternSize then none
  else if (enclosureFilter (shapeFilter (varianceFilter image.patches))).length <
      patternQuantity patternSize then none
  else if (clusterFilter (enclosureFilter (shapeFilter
      (varianceFilter image.patches)))).length < patternQuantity patternSize then none
  else if (reduceCluster (clusterFilter (enclosureFilter (shapeFilter
        (varianceFilter image.patches)))) (patternQuantity patternSize)).length =
      patternQuantity patternSize then
    some ((reduceCluster (clusterFilter (enclosureFilter (shapeFilter
      (varianceFilter image.patches)))) (patternQuantity patternSize)).map
        mserPatch.centroid2f)
  else none

/-- Modelled from the spec: the fixed iteration cap of the corner
refinement loop ("a fixed iteration cap", spec section 4.4). -/
def REFINEMENT_CAP : ℕ := 10

/-- Modelled from the spec: the convergence tolerance of the corner
refinement loop, as a squared displacement. -/
def REFINEMENT_TOLERANCE : ℚ := 1 / 100

/-- Modelled from the spec: the lower distance bound of the internal
verification gate of the pattern finder (computed inside the missing
body; zero keeps the gate permissive for well-formed grids). -/
def internalMinDist : ℚ := 0

/-- Modelled from the spec: the upper distance bound of the internal
verification gate, derived from the image extent. -/
def internalMaxDist (imSize : Size) : ℚ :=
  ((imSize.width + imSize.height : ℤ) : ℚ)

/-- The corner estimation stage of the pattern finder: topology sort of
the centres, iterative refinement against the external homography
predictor `hom`, then the final row-major sort of the corners. -/
def estimateCorners (hom : List Point2f → ℕ → Point2f)
    (imageSize patternSize : Size) (mode : ℤ) (correctionFactor : ℚ)
    (centres : List Point2f) : List Point2f :=
  sortCorners imageSize patternSize
    (refineCornerPositions correctionFactor REFINEMENT_TOLERANCE REFINEMENT_CAP hom
      (sortPatches imageSize patternSize centres mode))

/-- A sequence is in canonical row-major order when it is sorted by the
row-major precedence: top-to-bottom, and left-to-right inside a row. -/
def rowMajorOrdered (pts : List Point2f) : Prop :=
  List.Sorted lexLeP pts

/-- Modelled from the spec: the body of `findPatternCorners` is not under
`src/` (header line 218).  Data flow per spec section 2: filter the
detected patches down to exactly rows*columns (`refinePatches`), sort the
surviving centres, estimate and iteratively refine the corners with the
external homography predictor `hom`, sort the corners into canonical
row-major order, then gate the result on the geometric checks
(`verifyCorners`, `patternInFrame`); any failure returns `none` (the C++
`false`). -/
def findPatternCorners (hom : List Point2f → ℕ → Point2f)
    (image : CalibImage) (patternSize : Size) (mode : ℤ)
    (mserParams : mserParameterGroup) (correctionFactor : ℚ) :
    Option (List Point2f) :=
  (refinePatches image patternSize).bind (fun centres =>
    if verifyCorners image.size patternSize
          (estimateCorners hom image.size patternSize mode correctionFactor centres)
          internalMinDist (internalMaxDist image.size) &&
        patternInFrame image.size
          (estimateCorners hom image.size patternSize mode correctionFactor centres) 2
    then some (estimateCorners hom image.size patternSize mode correctionFactor centres)
    else none)

/-- C6: per-frame recoverable conditions are reported through the status
result of the pipeline operations: whenever the surviving patch count
drops below rows*columns at any filter stage (or the reduction cannot
reach exactly rows*columns), `refinePatches` stops early and returns the
failure status, and `findPatternCorners` propagates it as its own failure
status. -/
theorem refinePatches_early_exit (hom : List Point2f → ℕ → Point2f)
    (image : CalibImage) (patternSize : Size) (mode : ℤ)
    (mserParams : mserParameterGroup) (correctionFactor : ℚ)
    (h : (varianceFilter image.patches).length < patternQuantity patternSize ∨
      (shapeFilter (varianceFilter image.patches)).length <
        patternQuantity patternSize ∨
      (enclosureFilter (shapeFilter (varianceFilter image.patches))).length <
        patternQuantity patternSize ∨
      (clusterFilter (enclosureFilter (shapeFilter
        (varianceFilter image.patches)))).length < patternQuantity patternSize ∨
      (reduceCluster (clusterFilter (enclosureFilter (shapeFilter
          (varianceFilter image.patches)))) (patternQuantity patternSize)).length ≠
        patternQuantity patternSize) :
    refinePatches image patternSize = none ∧
    findPatternCorners hom image patternSize mode mserParams correctionFactor
      = none := by
  have hnone : refinePatches image patternSize = none := by
    unfold refinePatches
    rcases h with h | h | h | h | h <;>
      (split_ifs with h1 h2 h3 h4 h5 <;> first | rfl | (exfalso; omega))
  refine ⟨hnone, ?_⟩
  unfold findPatternCorners
  rw [hnone]
  rfl

/-- Closed instance of `refinePatches_early_exit`: a frame with no
detected patches at all against a 1-by-1 pattern. -/
theorem refinePatches_early_exit_witness :
    (varianceFilter (CalibImage.mk (Size.mk 10 10) []).patches).length <
      patternQuantity (Size.mk 1 1) ∧
    (refinePatches (CalibImage.mk (Size.mk 10 10) []) (Size.mk 1 1) = none ∧
      findPatternCorners (fun cs j => cs.getD j default)
        (CalibImage.mk (Size.mk 10 10) []) (Size.mk 1 1) 0
        mserParameterGroupDefault (1/2) = none) :=
  ⟨by decide,
    refinePatches_early_exit (fun cs j => cs.getD j default)
      (CalibImage.mk (Size.mk 10 10) []) (Size.mk 1 1) 0
      mserParameterGroupDefault (1/2) (Or.inl (by decide))⟩

/-- C1: whenever the core pattern-finding operation succeeds, the output
corner sequence has length exactly rows*columns and is in canonical
row-major order (top-to-bottom, left-to-right). -/
theorem findPatternCorners_success (hom : List Point2f → ℕ → Point2f)
    (image : CalibImage) (patternSize : Size) (mode : ℤ)
    (mserParams : mserParameterGroup) (correctionFactor : ℚ)
    (corners : List Point2f)
    (h : findPatternCorners hom image patternSize mode mserParams correctionFactor
        = some corners) :
    corners.length = patternSize.height.toNat * patternSize.width.toNat ∧
    rowMajorOrdered corners := by
  unfold findPatternCorners at h
  cases hr : refinePatches image patternSize with
  | none =>
      rw [hr] at h
      exact absurd h (by simp)
  | some centres =>
      rw [hr] at h
      simp only [Option.some_bind] at h
      split at h
      · rename_i hcond
        rw [Option.some.injEq] at h
        subst h
        rw [Bool.and_eq_true] at hcond
        have hv := hcond.1
        unfold verifyCorners verifyPattern at hv
        rw [Bool.and_eq_true, beq_iff_eq] at hv
        refine ⟨hv.1, ?_⟩
        unfold estimateCorners sortCorners rowMajorOrdered
        exact List.sorted_insertionSort lexLeP _
      · exact absurd h (by simp)

/-- Closed instance of `findPatternCorners_success`: a 1-by-1 pattern
found in a frame holding a single clean patch at (5,5). -/
theorem findPatternCorners_success_witness :
    findPatternCorners (fun cs j => cs.getD j default)
        (CalibImage.mk (Size.mk 10 10) [mserPatch.mk ⟨5, 5⟩ 1 0 0])
        (Size.mk 1 1) 0 mserParameterGroupDefault (1/2)
      = some [⟨5, 5⟩] ∧
    (([⟨5, 5⟩] : List Point2f).length =
        (Size.mk 1 1).height.toNat * (Size.mk 1 1).width.toNat ∧
      rowMajorOrdered [⟨5, 5⟩]) :=
  ⟨by with_unfolding_all rfl,
    findPatternCorners_success (fun cs j => cs.getD j default)
      (CalibImage.mk (Size.mk 10 10) [mserPatch.mk ⟨5, 5⟩ 1 0 0])
      (Size.mk 1 1) 0 mserParameterGroupDefault (1/2) [⟨5, 5⟩]
      (by with_unfolding_all rfl)⟩

end MMCalib
